import Mathlib

/-!
Shallow embedding of spade's `src/vector_traits.rs`.

The Rust trait `VectorN` (dimension count, scalar-broadcast construction,
indexed component access) is embedded as a record of operations `VectorN V S`.
Out-of-range component access is modelled by `Option`: the trait contract
demands fail-fast behaviour (a panic for the provided array adapters, whose
`nth`/`nth_mut` are plain `self[index]` indexing), which the embedding renders
as `none`.  The extension methods of `VectorNExtensions` and the
`ThreeDimensional::cross` product are translated loop by loop: each
`for i in 0 .. dimensions()` becomes structural recursion over an index list,
threaded through the `Option` monad so that an out-of-range write aborts the
whole call exactly where the Rust code would panic.

`LawfulVectorN` records the documented contract of the trait (§4.1 of the
spec): `dimensions()` many addressable components, `from_value` broadcasting,
`nth`/`nth_mut` valid exactly below `dimensions()`, and structural equality.
The fixed-size-array adapter `[S; n]` from the source file is embedded as
`arrN` over length-indexed lists and proved lawful.
-/

/-- Embedding of the Rust trait `VectorN`: `dims` is `dimensions()`,
`from_value` broadcasts a scalar, `nth` reads component `i`, and `set_nth`
models a write through `nth_mut`.  Out-of-range access yields `none`,
modelling the contract's fail-fast panic. -/
structure VectorN (V S : Type) where
  dims : Nat
  from_value : S → V
  nth : V → Nat → Option S
  set_nth : V → Nat → S → Option V

/-- Scalar capability consumed by the vector code (the Rust `SpadeNum` bound
together with `num::zero`): a zero constant, the four arithmetic operations
and an order used by `min_inline`/`max_inline`. -/
structure ScalarOps (S : Type) where
  zero : S
  add : S → S → S
  sub : S → S → S
  mul : S → S → S
  div : S → S → S
  lt : S → S → Bool

/-- Contract of the `VectorN` trait, as documented in the source and spec:
components `0 ≤ i < dimensions()` are exactly the addressable ones,
`from_value` broadcasts its argument to every component, a write through
`nth_mut` changes exactly the written component, and vector equality is
structural (component-wise). -/
structure LawfulVectorN {V S : Type} (I : VectorN V S) : Prop where
  nth_isSome : ∀ (v : V) (i : Nat), i < I.dims → (I.nth v i).isSome
  nth_oob : ∀ (v : V) (i : Nat), I.dims ≤ i → I.nth v i = none
  nth_from_value : ∀ (s : S) (i : Nat), i < I.dims → I.nth (I.from_value s) i = some s
  set_nth_isSome : ∀ (v : V) (i : Nat) (s : S), i < I.dims → (I.set_nth v i s).isSome
  set_nth_oob : ∀ (v : V) (i : Nat) (s : S), I.dims ≤ i → I.set_nth v i s = none
  nth_set_self : ∀ (v : V) (i : Nat) (s : S) (w : V), I.set_nth v i s = some w →
    I.nth w i = some s
  nth_set_other : ∀ (v : V) (i : Nat) (s : S) (w : V) (j : Nat), I.set_nth v i s = some w →
    j ≠ i → I.nth w j = I.nth v j
  ext_nth : ∀ (v w : V), (∀ i, I.nth v i = I.nth w i) → v = w

/-- Values of the fixed-size-array adapter `[S; n]`: a list of scalars whose
length is the array length. -/
abbrev ArrVec (S : Type) (n : Nat) : Type := { l : List S // l.length = n }

/-- The `VectorN` implementation the source provides for fixed arrays
(`impl VectorN for [S; 2] / [S; 3] / [S; 4]`, uniform in the length):
`dimensions()` is the literal `n`, `nth`/`nth_mut` are direct indexing
(panicking out of range, hence `none`), `from_value` is `[value; n]`. -/
def arrN (S : Type) (n : Nat) : VectorN (ArrVec S n) S where
  dims := n
  from_value s := ⟨List.replicate n s, List.length_replicate n s⟩
  nth v i := v.1[i]?
  set_nth v i s :=
    if h : i < n then some ⟨v.1.set i s, by rw [List.length_set]; exact v.2⟩ else none

theorem arrN_lawful (S : Type) (n : Nat) : LawfulVectorN (arrN S n) where
  nth_isSome v i hi := by
    have : i < v.1.length := by rw [v.2]; exact hi
    simp [arrN, List.getElem?_eq_getElem this]
  nth_oob v i hi := by
    have : v.1.length ≤ i := by rw [v.2]; exact hi
    simp [arrN, List.getElem?_eq_none this]
  nth_from_value s i hi := by
    have hi' : i < n := hi
    simp [arrN, List.getElem?_replicate, hi']
  set_nth_isSome v i s hi := by
    have hi' : i < n := hi
    simp [arrN, hi']
  set_nth_oob v i s hi := by
    have hi' : n ≤ i := hi
    simp [arrN, Nat.not_lt.mpr hi']
  nth_set_self v i s w hw := by
    by_cases h : i < n
    · simp [arrN, h] at hw
      have hi : i < v.1.length := by rw [v.2]; exact h
      rw [← hw]
      simp [arrN, List.getElem?_set_self hi]
    · simp [arrN, h] at hw
  nth_set_other v i s w j hw hj := by
    by_cases h : i < n
    · simp [arrN, h] at hw
      rw [← hw]
      simp [arrN, List.getElem?_set_ne (fun he => hj he.symm)]
    · simp [arrN, h] at hw
  ext_nth v w h := by
    apply Subtype.ext
    exact List.ext_getElem? h

/-- Loop of `VectorNExtensions::component_wise`: iterates the index list left
to right, writing `f(self.nth(i), rhs.nth(i))` through `nth_mut` into the
accumulator (which the source initialises to `self.clone()`). -/
def cwGo {V S : Type} (I : VectorN V S) (f : S → S → S) (self rhs : V) :
    List Nat → V → Option V
  | [], acc => some acc
  | i :: is, acc => do
      let a ← I.nth self i
      let b ← I.nth rhs i
      let acc' ← I.set_nth acc i (f a b)
      cwGo I f self rhs is acc'

/-- `VectorNExtensions::component_wise`: `result = self.clone()`, then for
`i in 0 .. Self::dimensions()` set `result[i] = f(self[i], rhs[i])`. -/
def component_wise {V S : Type} (I : VectorN V S) (f : S → S → S) (self rhs : V) : Option V :=
  cwGo I f self rhs (List.range I.dims) self

/-- `VectorNExtensions::new`: `Self::from_value(zero())`. -/
def vnew {V S : Type} (I : VectorN V S) (Sc : ScalarOps S) : V :=
  I.from_value Sc.zero

/-- `VectorNExtensions::add`: `component_wise(rhs, |l, r| l + r)`. -/
def vadd {V S : Type} (I : VectorN V S) (Sc : ScalarOps S) (self rhs : V) : Option V :=
  component_wise I (fun l r => Sc.add l r) self rhs

/-- `VectorNExtensions::sub`: `component_wise(rhs, |l, r| l - r)`. -/
def vsub {V S : Type} (I : VectorN V S) (Sc : ScalarOps S) (self rhs : V) : Option V :=
  component_wise I (fun l r => Sc.sub l r) self rhs

/-- Loop of `VectorNExtensions::map`: iterates `0 .. Self::dimensions()`
(the SOURCE type's dimension), writing `f(self.nth(i))` through the TARGET
type's `nth_mut` into the accumulator. -/
def mapGo {V S W T : Type} (I : VectorN V S) (J : VectorN W T) (f : S → T) (self : V) :
    List Nat → W → Option W
  | [], acc => some acc
  | i :: is, acc => do
      let a ← I.nth self i
      let acc' ← J.set_nth acc i (f a)
      mapGo I J f self is acc'

/-- `VectorNExtensions::map`: `result = O::new()` (target type, broadcast of
the target scalar's zero), then for `i in 0 .. Self::dimensions()` set
`result[i] = f(self[i])`.  The source and target vector types may differ. -/
def vmap {V S W T : Type} (I : VectorN V S) (J : VectorN W T) (JSc : ScalarOps T)
    (f : S → T) (self : V) : Option W :=
  mapGo I J f self (List.range I.dims) (vnew J JSc)

/-- `VectorNExtensions::div`: `map(|x| x / scalar.clone())` (same vector type
on both sides). -/
def vdiv {V S : Type} (I : VectorN V S) (Sc : ScalarOps S) (self : V) (scalar : S) : Option V :=
  vmap I I Sc (fun x => Sc.div x scalar) self

/-- `VectorNExtensions::mul`: `map(|x| x * scalar.clone())` (same vector type
on both sides). -/
def vmul {V S : Type} (I : VectorN V S) (Sc : ScalarOps S) (self : V) (scalar : S) : Option V :=
  vmap I I Sc (fun x => Sc.mul x scalar) self

/-- Modelled from the spec: `misc::min_inline` is not under `src/`; the spec
describes `min_vec` as the component-wise minimum by the scalar's ordering. -/
def min_inline {S : Type} (Sc : ScalarOps S) (a b : S) : S :=
  if Sc.lt a b then a else b

/-- Modelled from the spec: `misc::max_inline` is not under `src/`; the spec
describes `max_vec` as the component-wise maximum by the scalar's ordering. -/
def max_inline {S : Type} (Sc : ScalarOps S) (a b : S) : S :=
  if Sc.lt a b then b else a

/-- `VectorNExtensions::min_vec`: `component_wise(rhs, |l, r| min_inline(l, r))`. -/
def min_vec {V S : Type} (I : VectorN V S) (Sc : ScalarOps S) (self rhs : V) : Option V :=
  component_wise I (fun l r => min_inline Sc l r) self rhs

/-- `VectorNExtensions::max_vec`: `component_wise(rhs, |l, r| max_inline(l, r))`. -/
def max_vec {V S : Type} (I : VectorN V S) (Sc : ScalarOps S) (self rhs : V) : Option V :=
  component_wise I (fun l r => max_inline Sc l r) self rhs

/-- Loop of `VectorNExtensions::fold`: `acc = f(acc, self.nth(i))` for the
indices of the list, left to right. -/
def foldGo {V S T : Type} (I : VectorN V S) (f : T → S → T) (self : V) :
    List Nat → T → Option T
  | [], acc => some acc
  | i :: is, acc => do
      let a ← I.nth self i
      foldGo I f self is (f acc a)

/-- `VectorNExtensions::fold`: for `i in 0 .. Self::dimensions()`,
`acc = f(acc, self[i])`; returns the final accumulator. -/
def vfold {V S T : Type} (I : VectorN V S) (f : T → S → T) (self : V) (acc : T) : Option T :=
  foldGo I f self (List.range I.dims) acc

/-- Loop of `VectorNExtensions::all_comp_wise`: returns `false` at the first
index where the predicate fails, `true` after the last index. -/
def acwGo {V S : Type} (I : VectorN V S) (p : S → S → Bool) (self rhs : V) :
    List Nat → Option Bool
  | [] => some true
  | i :: is => do
      let a ← I.nth self i
      let b ← I.nth rhs i
      if p a b then acwGo I p self rhs is else some false

/-- `VectorNExtensions::all_comp_wise`: for `i in 0 .. Self::dimensions()`,
`if !f(self[i], rhs[i]) { return false; }`; `true` at the end. -/
def all_comp_wise {V S : Type} (I : VectorN V S) (p : S → S → Bool) (self rhs : V) :
    Option Bool :=
  acwGo I p self rhs (List.range I.dims)

/-- `VectorNExtensions::dot`:
`component_wise(rhs, |l, r| l * r).fold(zero(), |acc, val| acc + val)`. -/
def vdot {V S : Type} (I : VectorN V S) (Sc : ScalarOps S) (self rhs : V) : Option S := do
  let prod ← component_wise I (fun l r => Sc.mul l r) self rhs
  vfold I (fun acc val => Sc.add acc val) prod Sc.zero

/-- `VectorNExtensions::length2`: `self.dot(&self)`. -/
def length2 {V S : Type} (I : VectorN V S) (Sc : ScalarOps S) (self : V) : Option S :=
  vdot I Sc self self

/-- `ThreeDimensional::cross`: `result = Self::new()`, then the three
right-hand-rule components are written through `nth_mut(0)`, `nth_mut(1)`,
`nth_mut(2)` in order, each from fresh `nth` reads of `self` and `other`. -/
def vcross {V S : Type} (I : VectorN V S) (Sc : ScalarOps S) (self other : V) : Option V := do
  let a1 ← I.nth self 1
  let b2 ← I.nth other 2
  let a2 ← I.nth self 2
  let b1 ← I.nth other 1
  let r0 ← I.set_nth (vnew I Sc) 0 (Sc.sub (Sc.mul a1 b2) (Sc.mul a2 b1))
  let a2' ← I.nth self 2
  let b0 ← I.nth other 0
  let a0 ← I.nth self 0
  let b2' ← I.nth other 2
  let r1 ← I.set_nth r0 1 (Sc.sub (Sc.mul a2' b0) (Sc.mul a0 b2'))
  let a0' ← I.nth self 0
  let b1' ← I.nth other 1
  let a1' ← I.nth self 1
  let b0' ← I.nth other 0
  I.set_nth r1 2 (Sc.sub (Sc.mul a0' b1') (Sc.mul a1' b0'))

/-- Scalar operations of the integers, an instance of the `SpadeNum` bound
(used to instantiate theorems at concrete inputs). -/
def intOps : ScalarOps ℤ :=
  ⟨0, fun a b => a + b, fun a b => a - b, fun a b => a * b, fun a b => a / b,
    fun a b => decide (a < b)⟩

/-- Scalar operations of a linearly ordered field, the exact form of the
"ordered field-like arithmetic" the spec assumes of the scalar capability. -/
def fieldOps (S : Type) [LinearOrderedField S] : ScalarOps S :=
  ⟨0, fun a b => a + b, fun a b => a - b, fun a b => a * b, fun a b => a / b,
    fun a b => decide (a < b)⟩

theorem cwGo_spec {V S : Type} {I : VectorN V S} (L : LawfulVectorN I) (f : S → S → S)
    (self rhs : V) :
    ∀ (is : List Nat) (acc : V), (∀ i ∈ is, i < I.dims) → is.Nodup →
      ∃ w, cwGo I f self rhs is acc = some w ∧
        (∀ j ∈ is, I.nth w j = Option.map₂ f (I.nth self j) (I.nth rhs j)) ∧
        (∀ j, j ∉ is → I.nth w j = I.nth acc j) := by
  intro is
  induction is with
  | nil =>
    intro acc _ _
    exact ⟨acc, rfl, by simp, fun j _ => rfl⟩
  | cons i is ih =>
    intro acc hmem hnd
    have hi : i < I.dims := hmem i (List.mem_cons_self i is)
    obtain ⟨a, ha⟩ := Option.isSome_iff_exists.mp (L.nth_isSome self i hi)
    obtain ⟨b, hb⟩ := Option.isSome_iff_exists.mp (L.nth_isSome rhs i hi)
    obtain ⟨acc', hacc'⟩ := Option.isSome_iff_exists.mp (L.set_nth_isSome acc i (f a b) hi)
    obtain ⟨w, hw, hmemw, hrest⟩ :=
      ih acc' (fun j hj => hmem j (List.mem_cons_of_mem _ hj)) (List.nodup_cons.mp hnd).2
    refine ⟨w, ?_, ?_, ?_⟩
    · simp [cwGo, ha, hb, hacc', hw]
    · intro j hj
      rcases List.mem_cons.mp hj with hj | hj
      · subst hj
        have hni : j ∉ is := (List.nodup_cons.mp hnd).1
        rw [hrest j hni, L.nth_set_self acc j (f a b) acc' hacc', ha, hb]
        rfl
      · exact hmemw j hj
    · intro j hj
      have hji : j ≠ i := fun h => hj (h ▸ List.mem_cons_self i is)
      have hjis : j ∉ is := fun h => hj (List.mem_cons_of_mem _ h)
      rw [hrest j hjis, L.nth_set_other acc i (f a b) acc' j hacc' hji]

theorem component_wise_spec {V S : Type} {I : VectorN V S} (L : LawfulVectorN I)
    (f : S → S → S) (self rhs : V) :
    ∃ w, component_wise I f self rhs = some w ∧
      (∀ j, j < I.dims → I.nth w j = Option.map₂ f (I.nth self j) (I.nth rhs j)) ∧
      (∀ j, I.dims ≤ j → I.nth w j = I.nth self j) := by
  obtain ⟨w, hw, h1, h2⟩ := cwGo_spec L f self rhs (List.range I.dims) self
    (fun i hi => List.mem_range.mp hi) (List.nodup_range I.dims)
  refine ⟨w, hw, fun j hj => h1 j (List.mem_range.mpr hj), fun j hj => ?_⟩
  exact h2 j (fun hmem => absurd (List.mem_range.mp hmem) (Nat.not_lt.mpr hj))

/-- Instrumented form of the `map` loop: identical to `mapGo` except that it
also records, in order, every scalar the function `f` is applied to.  The
projection lemma `mapTraceGo_fst` ties it to the uninstrumented loop. -/
def mapTraceGo {V S W T : Type} (I : VectorN V S) (J : VectorN W T) (f : S → T) (self : V) :
    List Nat → W → List S → Option (W × List S)
  | [], acc, tr => some (acc, tr)
  | i :: is, acc, tr => do
      let a ← I.nth self i
      let acc' ← J.set_nth acc i (f a)
      mapTraceGo I J f self is acc' (tr ++ [a])

/-- Instrumented `VectorNExtensions::map`, also returning the list of scalars
`f` was applied to, in application order. -/
def vmapTrace {V S W T : Type} (I : VectorN V S) (J : VectorN W T) (JSc : ScalarOps T)
    (f : S → T) (self : V) : Option (W × List S) :=
  mapTraceGo I J f self (List.range I.dims) (vnew J JSc) []

theorem mapTraceGo_fst {V S W T : Type} (I : VectorN V S) (J : VectorN W T)
    (f : S → T) (self : V) :
    ∀ (is : List Nat) (acc : W) (tr : List S),
      Option.map Prod.fst (mapTraceGo I J f self is acc tr) = mapGo I J f self is acc := by
  intro is
  induction is with
  | nil => intro acc tr; rfl
  | cons i is ih =>
    intro acc tr
    simp only [mapTraceGo, mapGo, Option.bind_eq_bind]
    cases h : I.nth self i with
    | none => simp
    | some a =>
      simp only [Option.some_bind]
      cases h2 : J.set_nth acc i (f a) with
      | none => simp
      | some acc' =>
        simp only [Option.some_bind]
        exact ih acc' (tr ++ [a])

theorem mapTraceGo_spec {V S W T : Type} {I : VectorN V S} {J : VectorN W T}
    (L : LawfulVectorN I) (M : LawfulVectorN J) (f : S → T) (self : V) :
    ∀ (is : List Nat) (acc : W) (tr : List S),
      (∀ i ∈ is, i < I.dims) → (∀ i ∈ is, i < J.dims) → is.Nodup →
      ∃ w ts, mapTraceGo I J f self is acc tr = some (w, tr ++ ts) ∧
        ts.length = is.length ∧
        (∀ k : Nat, ts[k]? = (is[k]?).bind (fun i => I.nth self i)) ∧
        (∀ j ∈ is, J.nth w j = Option.map f (I.nth self j)) ∧
        (∀ j, j ∉ is → J.nth w j = J.nth acc j) := by
  intro is
  induction is with
  | nil =>
    intro acc tr _ _ _
    exact ⟨acc, [], by simp [mapTraceGo], rfl, by simp, by simp, fun j _ => rfl⟩
  | cons i is ih =>
    intro acc tr hsrc htgt hnd
    have hi : i < I.dims := hsrc i (List.mem_cons_self i is)
    have hi' : i < J.dims := htgt i (List.mem_cons_self i is)
    obtain ⟨a, ha⟩ := Option.isSome_iff_exists.mp (L.nth_isSome self i hi)
    obtain ⟨acc', hacc'⟩ := Option.isSome_iff_exists.mp (M.set_nth_isSome acc i (f a) hi')
    obtain ⟨w, ts, hw, hlen, hts, hmem, hrest⟩ :=
      ih acc' (tr ++ [a]) (fun j hj => hsrc j (List.mem_cons_of_mem _ hj))
        (fun j hj => htgt j (List.mem_cons_of_mem _ hj)) (List.nodup_cons.mp hnd).2
    refine ⟨w, a :: ts, ?_, by simp [hlen], ?_, ?_, ?_⟩
    · simp only [mapTraceGo, Option.bind_eq_bind, ha, Option.some_bind, hacc', hw]
      simp
    · intro k
      cases k with
      | zero => simp [ha]
      | succ k => simpa using hts k
    · intro j hj
      rcases List.mem_cons.mp hj with hj | hj
      · subst hj
        have hni : j ∉ is := (List.nodup_cons.mp hnd).1
        rw [hrest j hni, M.nth_set_self acc j (f a) acc' hacc', ha]
        rfl
      · exact hmem j hj
    · intro j hj
      have hji : j ≠ i := fun h => hj (h ▸ List.mem_cons_self i is)
      have hjis : j ∉ is := fun h => hj (List.mem_cons_of_mem _ h)
      rw [hrest j hjis, M.nth_set_other acc i (f a) acc' j hacc' hji]

theorem mapGo_none {V S W T : Type} {I : VectorN V S} {J : VectorN W T}
    (L : LawfulVectorN I) (M : LawfulVectorN J) (f : S → T) (self : V) :
    ∀ (is : List Nat) (acc : W), (∀ i ∈ is, i < I.dims) → (∃ i ∈ is, J.dims ≤ i) →
      mapGo I J f self is acc = none := by
  intro is
  induction is with
  | nil =>
    intro acc _ hex
    obtain ⟨i, hmem, _⟩ := hex
    exact absurd hmem (List.not_mem_nil i)
  | cons i is ih =>
    intro acc hsrc hex
    have hi : i < I.dims := hsrc i (List.mem_cons_self i is)
    obtain ⟨a, ha⟩ := Option.isSome_iff_exists.mp (L.nth_isSome self i hi)
    by_cases hj : i < J.dims
    · obtain ⟨acc', hacc'⟩ := Option.isSome_iff_exists.mp (M.set_nth_isSome acc i (f a) hj)
      have hex' : ∃ i ∈ is, J.dims ≤ i := by
        obtain ⟨i₀, hmem₀, hge₀⟩ := hex
        rcases List.mem_cons.mp hmem₀ with h | h
        · exact absurd hj (Nat.not_lt.mpr (h ▸ hge₀))
        · exact ⟨i₀, h, hge₀⟩
      simp only [mapGo, Option.bind_eq_bind, ha, Option.some_bind, hacc']
      exact ih acc' (fun j hjm => hsrc j (List.mem_cons_of_mem _ hjm)) hex'
    · have : J.set_nth acc i (f a) = none := M.set_nth_oob acc i (f a) (Nat.not_lt.mp hj)
      simp [mapGo, ha, this]

theorem foldGo_spec {V S T : Type} {I : VectorN V S} (L : LawfulVectorN I)
    (f : T → S → T) (self : V) :
    ∀ (is : List Nat) (acc : T), (∀ i ∈ is, i < I.dims) →
      ∃ cs : List S, foldGo I f self is acc = some (cs.foldl f acc) ∧
        cs.length = is.length ∧
        ∀ k : Nat, cs[k]? = (is[k]?).bind (fun i => I.nth self i) := by
  intro is
  induction is with
  | nil =>
    intro acc _
    exact ⟨[], rfl, rfl, by simp⟩
  | cons i is ih =>
    intro acc hmem
    have hi : i < I.dims := hmem i (List.mem_cons_self i is)
    obtain ⟨a, ha⟩ := Option.isSome_iff_exists.mp (L.nth_isSome self i hi)
    obtain ⟨cs, hfold, hlen, hcs⟩ :=
      ih (f acc a) (fun j hj => hmem j (List.mem_cons_of_mem _ hj))
    refine ⟨a :: cs, ?_, by simp [hlen], ?_⟩
    · simp only [foldGo, Option.bind_eq_bind, ha, Option.some_bind, hfold]
      rfl
    · intro k
      cases k with
      | zero => simp [ha]
      | succ k => simpa using hcs k

/-- Instrumented form of the `all_comp_wise` loop: identical to `acwGo` except
that it also records, in order, every index at which the predicate is
evaluated.  The projection lemma `acwTraceGo_fst` ties it to the
uninstrumented loop. -/
def acwTraceGo {V S : Type} (I : VectorN V S) (p : S → S → Bool) (self rhs : V) :
    List Nat → List Nat → Option (Bool × List Nat)
  | [], seen => some (true, seen)
  | i :: is, seen => do
      let a ← I.nth self i
      let b ← I.nth rhs i
      if p a b then acwTraceGo I p self rhs is (seen ++ [i]) else some (false, seen ++ [i])

/-- Instrumented `VectorNExtensions::all_comp_wise`, also returning the list
of indices whose components the predicate was evaluated on, in order. -/
def acwTrace {V S : Type} (I : VectorN V S) (p : S → S → Bool) (self rhs : V) :
    Option (Bool × List Nat) :=
  acwTraceGo I p self rhs (List.range I.dims) []

theorem acwTraceGo_fst {V S : Type} (I : VectorN V S) (p : S → S → Bool) (self rhs : V) :
    ∀ (is : List Nat) (seen : List Nat),
      Option.map Prod.fst (acwTraceGo I p self rhs is seen) = acwGo I p self rhs is := by
  intro is
  induction is with
  | nil => intro seen; rfl
  | cons i is ih =>
    intro seen
    simp only [acwTraceGo, acwGo, Option.bind_eq_bind]
    cases h : I.nth self i with
    | none => simp
    | some a =>
      simp only [Option.some_bind]
      cases h2 : I.nth rhs i with
      | none => simp
      | some b =>
        simp only [Option.some_bind]
        by_cases hp : p a b
        · simp only [hp, if_true]
          exact ih (seen ++ [i])
        · simp [hp]

theorem acwTraceGo_range' {V S : Type} {I : VectorN V S} (L : LawfulVectorN I)
    (p : S → S → Bool) (self rhs : V) :
    ∀ (n k : Nat) (seen : List Nat), k + n ≤ I.dims →
      (acwTraceGo I p self rhs (List.range' k n) seen = some (true, seen ++ List.range' k n) ∧
        ∀ i, k ≤ i → i < k + n → Option.map₂ p (I.nth self i) (I.nth rhs i) = some true)
      ∨ (∃ m, m < n ∧
          (∀ i, k ≤ i → i < k + m → Option.map₂ p (I.nth self i) (I.nth rhs i) = some true) ∧
          Option.map₂ p (I.nth self (k + m)) (I.nth rhs (k + m)) = some false ∧
          acwTraceGo I p self rhs (List.range' k n) seen =
            some (false, seen ++ List.range' k (m + 1))) := by
  intro n
  induction n with
  | zero =>
    intro k seen _
    left
    constructor
    · simp [List.range'_zero, acwTraceGo]
    · intro i h1 h2
      omega
  | succ n ih =>
    intro k seen hle
    have hk : k < I.dims := by omega
    obtain ⟨a, ha⟩ := Option.isSome_iff_exists.mp (L.nth_isSome self k hk)
    obtain ⟨b, hb⟩ := Option.isSome_iff_exists.mp (L.nth_isSome rhs k hk)
    have hstep : List.range' k (n + 1) = k :: List.range' (k + 1) n := List.range'_succ k n 1
    by_cases hp : p a b
    · rcases ih (k + 1) (seen ++ [k]) (by omega) with ⟨heq, hall⟩ | ⟨m, hm, hall, hfail, heq⟩
      · left
        constructor
        · rw [hstep]
          simp only [acwTraceGo, Option.bind_eq_bind, ha, Option.some_bind, hb, hp, if_true]
          rw [heq]
          simp
        · intro i h1 h2
          rcases Nat.eq_or_lt_of_le h1 with h | h
          · rw [← h, ha, hb]
            simp [hp]
          · exact hall i h (by omega)
      · right
        refine ⟨m + 1, by omega, ?_, ?_, ?_⟩
        · intro i h1 h2
          rcases Nat.eq_or_lt_of_le h1 with h | h
          · rw [← h, ha, hb]
            simp [hp]
          · exact hall i h (by omega)
        · have he : k + (m + 1) = k + 1 + m := by omega
          rw [he]
          exact hfail
        · rw [hstep]
          simp only [acwTraceGo, Option.bind_eq_bind, ha, Option.some_bind, hb, hp, if_true]
          rw [heq]
          have he : List.range' k (m + 1 + 1) = k :: List.range' (k + 1) (m + 1) :=
            List.range'_succ k (m + 1) 1
          rw [he]
          simp
    · right
      refine ⟨0, by omega, ?_, ?_, ?_⟩
      · intro i h1 h2
        omega
      · rw [Nat.add_zero, ha, hb]
        simp only [Option.map₂]
        simp [Bool.eq_false_iff.mpr hp]
      · rw [hstep]
        simp only [acwTraceGo, Option.bind_eq_bind, ha, Option.some_bind, hb, hp, if_false]
        simp [List.range'_one]

/-- State-threaded form of the `component_wise` loop: the borrowed inputs
`self` and `rhs` are carried through every iteration alongside the local
`result` accumulator, so that any mutation of an input would be visible in
the returned triple `(self, rhs, result)`. -/
def cwStGo {V S : Type} (I : VectorN V S) (f : S → S → S) :
    List Nat → V → V → V → Option (V × V × V)
  | [], self, rhs, acc => some (self, rhs, acc)
  | i :: is, self, rhs, acc => do
      let a ← I.nth self i
      let b ← I.nth rhs i
      let acc' ← I.set_nth acc i (f a b)
      cwStGo I f is self rhs acc'

/-- State-threaded `component_wise`: returns the final values of `self` and
`rhs` together with the freshly built result (which starts from
`self.clone()`). -/
def component_wiseSt {V S : Type} (I : VectorN V S) (f : S → S → S) (self rhs : V) :
    Option (V × V × V) :=
  cwStGo I f (List.range I.dims) self rhs self

/-- State-threaded form of the `map` loop, carrying the borrowed `self`. -/
def mapStGo {V S W T : Type} (I : VectorN V S) (J : VectorN W T) (f : S → T) :
    List Nat → V → W → Option (V × W)
  | [], self, acc => some (self, acc)
  | i :: is, self, acc => do
      let a ← I.nth self i
      let acc' ← J.set_nth acc i (f a)
      mapStGo I J f is self acc'

/-- State-threaded `map`. -/
def vmapSt {V S W T : Type} (I : VectorN V S) (J : VectorN W T) (JSc : ScalarOps T)
    (f : S → T) (self : V) : Option (V × W) :=
  mapStGo I J f (List.range I.dims) self (vnew J JSc)

/-- State-threaded form of the `fold` loop, carrying the borrowed `self`. -/
def foldStGo {V S T : Type} (I : VectorN V S) (f : T → S → T) :
    List Nat → V → T → Option (V × T)
  | [], self, acc => some (self, acc)
  | i :: is, self, acc => do
      let a ← I.nth self i
      foldStGo I f is self (f acc a)

/-- State-threaded `fold`. -/
def vfoldSt {V S T : Type} (I : VectorN V S) (f : T → S → T) (self : V) (acc : T) :
    Option (V × T) :=
  foldStGo I f (List.range I.dims) self acc

/-- State-threaded form of the `all_comp_wise` loop, carrying both borrowed
inputs. -/
def acwStGo {V S : Type} (I : VectorN V S) (p : S → S → Bool) :
    List Nat → V → V → Option (V × V × Bool)
  | [], self, rhs => some (self, rhs, true)
  | i :: is, self, rhs => do
      let a ← I.nth self i
      let b ← I.nth rhs i
      if p a b then acwStGo I p is self rhs else some (self, rhs, false)

/-- State-threaded `all_comp_wise`. -/
def all_comp_wiseSt {V S : Type} (I : VectorN V S) (p : S → S → Bool) (self rhs : V) :
    Option (V × V × Bool) :=
  acwStGo I p (List.range I.dims) self rhs

/-- State-threaded `add`. -/
def vaddSt {V S : Type} (I : VectorN V S) (Sc : ScalarOps S) (self rhs : V) :
    Option (V × V × V) :=
  component_wiseSt I (fun l r => Sc.add l r) self rhs

/-- State-threaded `sub`. -/
def vsubSt {V S : Type} (I : VectorN V S) (Sc : ScalarOps S) (self rhs : V) :
    Option (V × V × V) :=
  component_wiseSt I (fun l r => Sc.sub l r) self rhs

/-- State-threaded `mul`. -/
def vmulSt {V S : Type} (I : VectorN V S) (Sc : ScalarOps S) (self : V) (scalar : S) :
    Option (V × V) :=
  vmapSt I I Sc (fun x => Sc.mul x scalar) self

/-- State-threaded `div`. -/
def vdivSt {V S : Type} (I : VectorN V S) (Sc : ScalarOps S) (self : V) (scalar : S) :
    Option (V × V) :=
  vmapSt I I Sc (fun x => Sc.div x scalar) self

/-- State-threaded `min_vec`. -/
def min_vecSt {V S : Type} (I : VectorN V S) (Sc : ScalarOps S) (self rhs : V) :
    Option (V × V × V) :=
  component_wiseSt I (fun l r => min_inline Sc l r) self rhs

/-- State-threaded `max_vec`. -/
def max_vecSt {V S : Type} (I : VectorN V S) (Sc : ScalarOps S) (self rhs : V) :
    Option (V × V × V) :=
  component_wiseSt I (fun l r => max_inline Sc l r) self rhs

/-- State-threaded `dot`: the componentwise product is built first (its
inputs threaded through), then summed by the state-threaded fold. -/
def vdotSt {V S : Type} (I : VectorN V S) (Sc : ScalarOps S) (self rhs : V) :
    Option (V × V × S) := do
  let (self', rhs', prod) ← component_wiseSt I (fun l r => Sc.mul l r) self rhs
  let (_, total) ← vfoldSt I (fun acc val => Sc.add acc val) prod Sc.zero
  some (self', rhs', total)

/-- State-threaded `length2`: `self.dot(&self)`, the single input threaded
through both borrows. -/
def length2St {V S : Type} (I : VectorN V S) (Sc : ScalarOps S) (self : V) :
    Option (V × S) := do
  let (self', _, total) ← vdotSt I Sc self self
  some (self', total)

/-- State-threaded `cross`: straight-line writes into a fresh `Self::new()`,
the borrowed inputs returned alongside the result. -/
def crossSt {V S : Type} (I : VectorN V S) (Sc : ScalarOps S) (self other : V) :
    Option (V × V × V) := do
  let r ← vcross I Sc self other
  some (self, other, r)

theorem cwStGo_pres {V S : Type} (I : VectorN V S) (f : S → S → S) :
    ∀ (is : List Nat) (self rhs acc : V) (out : V × V × V),
      cwStGo I f is self rhs acc = some out → out.1 = self ∧ out.2.1 = rhs := by
  intro is
  induction is with
  | nil =>
    intro self rhs acc out h
    simp only [cwStGo, Option.some_inj] at h
    rw [← h]
    exact ⟨rfl, rfl⟩
  | cons i is ih =>
    intro self rhs acc out h
    simp only [cwStGo, Option.bind_eq_bind] at h
    cases ha : I.nth self i with
    | none => rw [ha] at h; simp at h
    | some a =>
      rw [ha] at h
      simp only [Option.some_bind] at h
      cases hb : I.nth rhs i with
      | none => rw [hb] at h; simp at h
      | some b =>
        rw [hb] at h
        simp only [Option.some_bind] at h
        cases hc : I.set_nth acc i (f a b) with
        | none => rw [hc] at h; simp at h
        | some acc' =>
          rw [hc] at h
          simp only [Option.some_bind] at h
          exact ih self rhs acc' out h

theorem mapStGo_pres {V S W T : Type} (I : VectorN V S) (J : VectorN W T) (f : S → T) :
    ∀ (is : List Nat) (self : V) (acc : W) (out : V × W),
      mapStGo I J f is self acc = some out → out.1 = self := by
  intro is
  induction is with
  | nil =>
    intro self acc out h
    simp only [mapStGo, Option.some_inj] at h
    rw [← h]
  | cons i is ih =>
    intro self acc out h
    simp only [mapStGo, Option.bind_eq_bind] at h
    cases ha : I.nth self i with
    | none => rw [ha] at h; simp at h
    | some a =>
      rw [ha] at h
      simp only [Option.some_bind] at h
      cases hc : J.set_nth acc i (f a) with
      | none => rw [hc] at h; simp at h
      | some acc' =>
        rw [hc] at h
        simp only [Option.some_bind] at h
        exact ih self acc' out h

theorem foldStGo_pres {V S T : Type} (I : VectorN V S) (f : T → S → T) :
    ∀ (is : List Nat) (self : V) (acc : T) (out : V × T),
      foldStGo I f is self acc = some out → out.1 = self := by
  intro is
  induction is with
  | nil =>
    intro self acc out h
    simp only [foldStGo, Option.some_inj] at h
    rw [← h]
  | cons i is ih =>
    intro self acc out h
    simp only [foldStGo, Option.bind_eq_bind] at h
    cases ha : I.nth self i with
    | none => rw [ha] at h; simp at h
    | some a =>
      rw [ha] at h
      simp only [Option.some_bind] at h
      exact ih self (f acc a) out h

theorem acwStGo_pres {V S : Type} (I : VectorN V S) (p : S → S → Bool) :
    ∀ (is : List Nat) (self rhs : V) (out : V × V × Bool),
      acwStGo I p is self rhs = some out → out.1 = self ∧ out.2.1 = rhs := by
  intro is
  induction is with
  | nil =>
    intro self rhs out h
    simp only [acwStGo, Option.some_inj] at h
    rw [← h]
    exact ⟨rfl, rfl⟩
  | cons i is ih =>
    intro self rhs out h
    simp only [acwStGo, Option.bind_eq_bind] at h
    cases ha : I.nth self i with
    | none => rw [ha] at h; simp at h
    | some a =>
      rw [ha] at h
      simp only [Option.some_bind] at h
      cases hb : I.nth rhs i with
      | none => rw [hb] at h; simp at h
      | some b =>
        rw [hb] at h
        simp only [Option.some_bind] at h
        by_cases hp : p a b
        · rw [if_pos hp] at h
          exact ih self rhs out h
        · rw [if_neg hp, Option.some_inj] at h
          rw [← h]
          exact ⟨rfl, rfl⟩

theorem vmap_spec {V S W T : Type} {I : VectorN V S} {J : VectorN W T}
    (L : LawfulVectorN I) (M : LawfulVectorN J) (JSc : ScalarOps T) (f : S → T) (self : V)
    (hd : I.dims ≤ J.dims) :
    ∃ r, vmap I J JSc f self = some r ∧
      (∀ j, j < I.dims → J.nth r j = Option.map f (I.nth self j)) ∧
      (∀ j, I.dims ≤ j → J.nth r j = J.nth (vnew J JSc) j) := by
  obtain ⟨w, ts, hmt, _, _, hmem, hrest⟩ := mapTraceGo_spec L M f self (List.range I.dims)
    (vnew J JSc) [] (fun i hi => List.mem_range.mp hi)
    (fun i hi => Nat.lt_of_lt_of_le (List.mem_range.mp hi) hd) (List.nodup_range I.dims)
  have hproj := mapTraceGo_fst I J f self (List.range I.dims) (vnew J JSc) []
  rw [hmt] at hproj
  simp only [Option.map_some'] at hproj
  refine ⟨w, hproj.symm, fun j hj => hmem j (List.mem_range.mpr hj), fun j hj => ?_⟩
  exact hrest j (fun hmem' => absurd (List.mem_range.mp hmem') (Nat.not_lt.mpr hj))

/-- C2: for every pair of vectors of the same (lawful) `VectorN` type and
every binary scalar function `f`, `a.component_wise(b, f)` succeeds and its
`i`-th component equals `f(a.nth(i), b.nth(i))` for every index
`i < dimensions()`. -/
theorem C2_component_wise_pointwise {V S : Type} {I : VectorN V S} (L : LawfulVectorN I)
    (f : S → S → S) (a b : V) :
    ∃ r, component_wise I f a b = some r ∧
      ∀ i, i < I.dims → I.nth r i = Option.map₂ f (I.nth a i) (I.nth b i) := by
  obtain ⟨w, hw, h1, _⟩ := component_wise_spec L f a b
  exact ⟨w, hw, h1⟩

/-- Witness for C2: the integer 2-array adapter with componentwise addition. -/
theorem C2_component_wise_pointwise_witness :
    ∃ r, component_wise (arrN ℤ 2) (fun l r => l + r) ⟨[1, 2], rfl⟩ ⟨[3, 4], rfl⟩ = some r ∧
      ∀ i, i < (arrN ℤ 2).dims → (arrN ℤ 2).nth r i =
        Option.map₂ (fun l r => l + r) ((arrN ℤ 2).nth ⟨[1, 2], rfl⟩ i)
          ((arrN ℤ 2).nth ⟨[3, 4], rfl⟩ i) :=
  C2_component_wise_pointwise (arrN_lawful ℤ 2) (fun l r => l + r) ⟨[1, 2], rfl⟩ ⟨[3, 4], rfl⟩

/-- C7: `fold(init, f)` is the left-to-right `foldl` of the component list in
ascending index order: the component list `cs` has length `dimensions()`,
its `k`-th entry is `v.nth(k)`, and the fold returns `cs.foldl f init`. -/
theorem C7_fold_is_foldl {V S T : Type} {I : VectorN V S} (L : LawfulVectorN I)
    (f : T → S → T) (init : T) (v : V) :
    ∃ cs : List S, vfold I f v init = some (cs.foldl f init) ∧
      cs.length = I.dims ∧ ∀ k : Nat, cs[k]? = I.nth v k := by
  obtain ⟨cs, hf, hlen, hcs⟩ := foldGo_spec L f v (List.range I.dims) init
    (fun i hi => List.mem_range.mp hi)
  refine ⟨cs, hf, by simp [hlen], ?_⟩
  intro k
  by_cases hk : k < I.dims
  · rw [hcs k, List.getElem?_range hk]
    rfl
  · have h1 : (List.range I.dims)[k]? = none := by
      rw [List.getElem?_eq_none]
      simpa using Nat.not_lt.mp hk
    rw [hcs k, h1, L.nth_oob v k (Nat.not_lt.mp hk)]
    rfl

/-- Witness for C7: a non-commutative fold (decimal digit accumulation) over
the integer 3-array `[1, 2, 3]`. -/
theorem C7_fold_is_foldl_witness :
    ∃ cs : List ℤ, vfold (arrN ℤ 3) (fun acc x => 10 * acc + x) ⟨[1, 2, 3], rfl⟩ 0 =
        some (cs.foldl (fun acc x => 10 * acc + x) 0) ∧
      cs.length = (arrN ℤ 3).dims ∧ ∀ k : Nat, cs[k]? = (arrN ℤ 3).nth ⟨[1, 2, 3], rfl⟩ k :=
  C7_fold_is_foldl (arrN_lawful ℤ 3) (fun acc x => 10 * acc + x) 0 ⟨[1, 2, 3], rfl⟩

/-- C4: `dot` — the componentwise product summed by a fold from zero — is
symmetric whenever the scalar multiplication is commutative (as it is for
every numeric `SpadeNum` scalar): `a.dot(b) == b.dot(a)`. -/
theorem C4_dot_symmetric {V S : Type} {I : VectorN V S} (L : LawfulVectorN I)
    (Sc : ScalarOps S) (hcomm : ∀ x y, Sc.mul x y = Sc.mul y x) (a b : V) :
    vdot I Sc a b = vdot I Sc b a := by
  obtain ⟨p1, hp1, hc1, _⟩ := component_wise_spec L (fun l r => Sc.mul l r) a b
  obtain ⟨p2, hp2, hc2, _⟩ := component_wise_spec L (fun l r => Sc.mul l r) b a
  obtain ⟨cs1, hf1, _, hk1⟩ := foldGo_spec L (fun acc val => Sc.add acc val) p1
    (List.range I.dims) Sc.zero (fun i hi => List.mem_range.mp hi)
  obtain ⟨cs2, hf2, _, hk2⟩ := foldGo_spec L (fun acc val => Sc.add acc val) p2
    (List.range I.dims) Sc.zero (fun i hi => List.mem_range.mp hi)
  have hcs : cs1 = cs2 := by
    apply List.ext_getElem?
    intro k
    rw [hk1 k, hk2 k]
    by_cases hk : k < I.dims
    · rw [List.getElem?_range hk]
      show I.nth p1 k = I.nth p2 k
      rw [hc1 k hk, hc2 k hk]
      obtain ⟨x, hx⟩ := Option.isSome_iff_exists.mp (L.nth_isSome a k hk)
      obtain ⟨y, hy⟩ := Option.isSome_iff_exists.mp (L.nth_isSome b k hk)
      rw [hx, hy]
      simp only [Option.map₂]
      simp [hcomm x y]
    · have h1 : (List.range I.dims)[k]? = none := by
        rw [List.getElem?_eq_none]
        simpa using Nat.not_lt.mp hk
      rw [h1]
      rfl
  simp only [vdot, vfold, Option.bind_eq_bind, hp1, hp2, Option.some_bind, hf1, hf2, hcs]

/-- Witness for C4: `[1,2,3] · [4,5,6] = [4,5,6] · [1,2,3]` over the integer
3-array adapter. -/
theorem C4_dot_symmetric_witness :
    vdot (arrN ℤ 3) intOps ⟨[1, 2, 3], rfl⟩ ⟨[4, 5, 6], rfl⟩ =
      vdot (arrN ℤ 3) intOps ⟨[4, 5, 6], rfl⟩ ⟨[1, 2, 3], rfl⟩ :=
  C4_dot_symmetric (arrN_lawful ℤ 3) intOps (fun x y => Int.mul_comm x y)
    ⟨[1, 2, 3], rfl⟩ ⟨[4, 5, 6], rfl⟩

/-- C5: `a.add(b).sub(b) == a` for all same-type vectors, up to the scalar
arithmetic's own exactness (stated as the scalar cancellation law
`(x + y) - y = x`, which exact scalars such as the integers satisfy). -/
theorem C5_add_sub_inverse {V S : Type} {I : VectorN V S} (L : LawfulVectorN I)
    (Sc : ScalarOps S) (hcancel : ∀ x y, Sc.sub (Sc.add x y) y = x) (a b : V) :
    ∃ c, vadd I Sc a b = some c ∧ vsub I Sc c b = some a := by
  obtain ⟨c, hc, hc1, hc2⟩ := component_wise_spec L (fun l r => Sc.add l r) a b
  obtain ⟨d, hd, hd1, hd2⟩ := component_wise_spec L (fun l r => Sc.sub l r) c b
  have hda : d = a := by
    apply L.ext_nth
    intro i
    by_cases hi : i < I.dims
    · obtain ⟨x, hx⟩ := Option.isSome_iff_exists.mp (L.nth_isSome a i hi)
      obtain ⟨y, hy⟩ := Option.isSome_iff_exists.mp (L.nth_isSome b i hi)
      rw [hd1 i hi, hc1 i hi, hx, hy]
      simp only [Option.map₂]
      simp [hcancel x y]
    · have hio : I.dims ≤ i := Nat.not_lt.mp hi
      rw [hd2 i hio, hc2 i hio]
  exact ⟨c, hc, hda ▸ hd⟩

/-- Witness for C5: `[1,2].add([3,4]).sub([3,4]) == [1,2]` over the integer
2-array adapter. -/
theorem C5_add_sub_inverse_witness :
    ∃ c, vadd (arrN ℤ 2) intOps ⟨[1, 2], rfl⟩ ⟨[3, 4], rfl⟩ = some c ∧
      vsub (arrN ℤ 2) intOps c ⟨[3, 4], rfl⟩ = some ⟨[1, 2], rfl⟩ :=
  C5_add_sub_inverse (arrN_lawful ℤ 2) intOps (fun x y => add_sub_cancel_right x y)
    ⟨[1, 2], rfl⟩ ⟨[3, 4], rfl⟩

/-- C6: over the ordered-field scalar arithmetic the spec assumes, for every
vector `a` and scalar `s ≠ 0`, `a.mul(s).div(s) == a`. -/
theorem C6_mul_div_inverse {S : Type} [LinearOrderedField S] {V : Type} {I : VectorN V S}
    (L : LawfulVectorN I) (s : S) (hs : s ≠ 0) (a : V) :
    ∃ m, vmul I (fieldOps S) a s = some m ∧ vdiv I (fieldOps S) m s = some a := by
  obtain ⟨m, hm, hm1, hm2⟩ :=
    vmap_spec L L (fieldOps S) (fun x => (fieldOps S).mul x s) a (le_refl I.dims)
  obtain ⟨r, hr, hr1, hr2⟩ :=
    vmap_spec L L (fieldOps S) (fun x => (fieldOps S).div x s) m (le_refl I.dims)
  have hra : r = a := by
    apply L.ext_nth
    intro i
    by_cases hi : i < I.dims
    · obtain ⟨x, hx⟩ := Option.isSome_iff_exists.mp (L.nth_isSome a i hi)
      rw [hr1 i hi, hm1 i hi, hx]
      simp only [Option.map_some']
      show some (x * s / s) = some x
      rw [mul_div_cancel_right₀ x hs]
    · have hio : I.dims ≤ i := Nat.not_lt.mp hi
      rw [hr2 i hio, L.nth_oob (vnew I (fieldOps S)) i hio, L.nth_oob a i hio]
  exact ⟨m, hm, hra ▸ hr⟩

/-- Witness for C6: `[1,2].mul(3).div(3) == [1,2]` over the rational 2-array
adapter. -/
theorem C6_mul_div_inverse_witness :
    ∃ m, vmul (arrN ℚ 2) (fieldOps ℚ) ⟨[1, 2], rfl⟩ 3 = some m ∧
      vdiv (arrN ℚ 2) (fieldOps ℚ) m 3 = some ⟨[1, 2], rfl⟩ :=
  C6_mul_div_inverse (arrN_lawful ℚ 2) 3 (by norm_num) ⟨[1, 2], rfl⟩

/-- C3: for every lawful 3-dimensional vector type, `cross` succeeds and its
components follow the right-hand-rule formula:
component 0 is `self[1]*other[2] - self[2]*other[1]`,
component 1 is `self[2]*other[0] - self[0]*other[2]`,
component 2 is `self[0]*other[1] - self[1]*other[0]`. -/
theorem C3_cross_right_hand_rule {V S : Type} {I : VectorN V S} (L : LawfulVectorN I)
    (Sc : ScalarOps S) (hdim : I.dims = 3) (a b : V) :
    ∃ r, vcross I Sc a b = some r ∧
      I.nth r 0 = Option.map₂ Sc.sub (Option.map₂ Sc.mul (I.nth a 1) (I.nth b 2))
        (Option.map₂ Sc.mul (I.nth a 2) (I.nth b 1)) ∧
      I.nth r 1 = Option.map₂ Sc.sub (Option.map₂ Sc.mul (I.nth a 2) (I.nth b 0))
        (Option.map₂ Sc.mul (I.nth a 0) (I.nth b 2)) ∧
      I.nth r 2 = Option.map₂ Sc.sub (Option.map₂ Sc.mul (I.nth a 0) (I.nth b 1))
        (Option.map₂ Sc.mul (I.nth a 1) (I.nth b 0)) := by
  have h0 : (0 : Nat) < I.dims := by omega
  have h1 : (1 : Nat) < I.dims := by omega
  have h2 : (2 : Nat) < I.dims := by omega
  obtain ⟨a0, ha0⟩ := Option.isSome_iff_exists.mp (L.nth_isSome a 0 h0)
  obtain ⟨a1, ha1⟩ := Option.isSome_iff_exists.mp (L.nth_isSome a 1 h1)
  obtain ⟨a2, ha2⟩ := Option.isSome_iff_exists.mp (L.nth_isSome a 2 h2)
  obtain ⟨b0, hb0⟩ := Option.isSome_iff_exists.mp (L.nth_isSome b 0 h0)
  obtain ⟨b1, hb1⟩ := Option.isSome_iff_exists.mp (L.nth_isSome b 1 h1)
  obtain ⟨b2, hb2⟩ := Option.isSome_iff_exists.mp (L.nth_isSome b 2 h2)
  obtain ⟨r0, hr0⟩ := Option.isSome_iff_exists.mp
    (L.set_nth_isSome (vnew I Sc) 0 (Sc.sub (Sc.mul a1 b2) (Sc.mul a2 b1)) h0)
  obtain ⟨r1, hr1⟩ := Option.isSome_iff_exists.mp
    (L.set_nth_isSome r0 1 (Sc.sub (Sc.mul a2 b0) (Sc.mul a0 b2)) h1)
  obtain ⟨r2, hr2⟩ := Option.isSome_iff_exists.mp
    (L.set_nth_isSome r1 2 (Sc.sub (Sc.mul a0 b1) (Sc.mul a1 b0)) h2)
  refine ⟨r2, ?_, ?_, ?_, ?_⟩
  · simp only [vcross, Option.bind_eq_bind, ha0, ha1, ha2, hb0, hb1, hb2, Option.some_bind,
      hr0, hr1, hr2]
  · rw [L.nth_set_other r1 2 (Sc.sub (Sc.mul a0 b1) (Sc.mul a1 b0)) r2 0 hr2 (by omega),
      L.nth_set_other r0 1 (Sc.sub (Sc.mul a2 b0) (Sc.mul a0 b2)) r1 0 hr1 (by omega),
      L.nth_set_self (vnew I Sc) 0 (Sc.sub (Sc.mul a1 b2) (Sc.mul a2 b1)) r0 hr0,
      ha1, hb2, ha2, hb1]
    rfl
  · rw [L.nth_set_other r1 2 (Sc.sub (Sc.mul a0 b1) (Sc.mul a1 b0)) r2 1 hr2 (by omega),
      L.nth_set_self r0 1 (Sc.sub (Sc.mul a2 b0) (Sc.mul a0 b2)) r1 hr1,
      ha2, hb0, ha0, hb2]
    rfl
  · rw [L.nth_set_self r1 2 (Sc.sub (Sc.mul a0 b1) (Sc.mul a1 b0)) r2 hr2,
      ha0, hb1, ha1, hb0]
    rfl

/-- Witness for C3: the concrete scenario `[1,0,0].cross([0,1,0]) == [0,0,1]`
on integer 3-arrays, together with the instantiated component formulas. -/
theorem C3_cross_right_hand_rule_witness :
    vcross (arrN ℤ 3) intOps ⟨[1, 0, 0], rfl⟩ ⟨[0, 1, 0], rfl⟩ = some ⟨[0, 0, 1], rfl⟩ ∧
    (∃ r, vcross (arrN ℤ 3) intOps ⟨[1, 0, 0], rfl⟩ ⟨[0, 1, 0], rfl⟩ = some r ∧
      (arrN ℤ 3).nth r 0 = Option.map₂ intOps.sub
        (Option.map₂ intOps.mul ((arrN ℤ 3).nth ⟨[1, 0, 0], rfl⟩ 1)
          ((arrN ℤ 3).nth ⟨[0, 1, 0], rfl⟩ 2))
        (Option.map₂ intOps.mul ((arrN ℤ 3).nth ⟨[1, 0, 0], rfl⟩ 2)
          ((arrN ℤ 3).nth ⟨[0, 1, 0], rfl⟩ 1)) ∧
      (arrN ℤ 3).nth r 1 = Option.map₂ intOps.sub
        (Option.map₂ intOps.mul ((arrN ℤ 3).nth ⟨[1, 0, 0], rfl⟩ 2)
          ((arrN ℤ 3).nth ⟨[0, 1, 0], rfl⟩ 0))
        (Option.map₂ intOps.mul ((arrN ℤ 3).nth ⟨[1, 0, 0], rfl⟩ 0)
          ((arrN ℤ 3).nth ⟨[0, 1, 0], rfl⟩ 2)) ∧
      (arrN ℤ 3).nth r 2 = Option.map₂ intOps.sub
        (Option.map₂ intOps.mul ((arrN ℤ 3).nth ⟨[1, 0, 0], rfl⟩ 0)
          ((arrN ℤ 3).nth ⟨[0, 1, 0], rfl⟩ 1))
        (Option.map₂ intOps.mul ((arrN ℤ 3).nth ⟨[1, 0, 0], rfl⟩ 1)
          ((arrN ℤ 3).nth ⟨[0, 1, 0], rfl⟩ 0))) :=
  ⟨by decide,
    C3_cross_right_hand_rule (arrN_lawful ℤ 3) intOps rfl ⟨[1, 0, 0], rfl⟩ ⟨[0, 1, 0], rfl⟩⟩

/-- C8: `all_comp_wise(rhs, p)` succeeds with a boolean `r` that is `true`
exactly when the predicate holds at every index `i < dimensions()`; the
predicate is evaluated on indices in ascending order (the trace of evaluated
indices is an initial range), the whole range when `r` is `true`, and
evaluation stops at the first failing index `k` (trace `0, …, k`) with
result `false`. -/
theorem C8_all_comp_wise_short_circuit {V S : Type} {I : VectorN V S} (L : LawfulVectorN I)
    (p : S → S → Bool) (a b : V) :
    ∃ (r : Bool) (tr : List Nat), acwTrace I p a b = some (r, tr) ∧
      all_comp_wise I p a b = some r ∧
      (r = true ↔ ∀ i, i < I.dims → Option.map₂ p (I.nth a i) (I.nth b i) = some true) ∧
      (r = true → tr = List.range I.dims) ∧
      (∀ k, k < I.dims →
        (∀ j, j < k → Option.map₂ p (I.nth a j) (I.nth b j) = some true) →
        Option.map₂ p (I.nth a k) (I.nth b k) = some false →
        r = false ∧ tr = List.range (k + 1)) := by
  rcases acwTraceGo_range' L p a b I.dims 0 [] (by omega) with ⟨heq, hall⟩ |
    ⟨m, hm, hall, hfail, heq⟩
  · have hT : acwTraceGo I p a b (List.range I.dims) [] = some (true, List.range I.dims) := by
      rw [List.range_eq_range', heq]
      simp [List.range_eq_range']
    have hproj := acwTraceGo_fst I p a b (List.range I.dims) []
    rw [hT] at hproj
    simp only [Option.map_some'] at hproj
    refine ⟨true, List.range I.dims, hT, hproj.symm, ?_, fun _ => rfl, ?_⟩
    · refine ⟨fun _ i hi => hall i (Nat.zero_le i) (by omega), fun _ => rfl⟩
    · intro k hk _ hfailk
      have := hall k (Nat.zero_le k) (by omega)
      rw [hfailk] at this
      simp at this
  · rw [Nat.zero_add] at hfail
    have hT : acwTraceGo I p a b (List.range I.dims) [] =
        some (false, List.range (m + 1)) := by
      rw [List.range_eq_range', heq]
      simp [List.range_eq_range']
    have hproj := acwTraceGo_fst I p a b (List.range I.dims) []
    rw [hT] at hproj
    simp only [Option.map_some'] at hproj
    refine ⟨false, List.range (m + 1), hT, hproj.symm, ?_, ?_, ?_⟩
    · constructor
      · intro h
        simp at h
      · intro hforall
        have := hforall m hm
        rw [hfail] at this
        simp at this
    · intro h
      simp at h
    · intro k hk hpre hfailk
      rcases Nat.lt_trichotomy k m with hlt | hek | hgt
      · have := hall k (Nat.zero_le k) (by omega)
        rw [hfailk] at this
        simp at this
      · exact ⟨rfl, by rw [hek]⟩
      · have := hpre m hgt
        rw [hfail] at this
        simp at this

/-- Witness for C8: over integer 2-arrays `[1, 5]`, `[2, 3]` with the
less-or-equal predicate (true at index 0, false at index 1): the call
returns `false` with evaluation trace `[0, 1]`. -/
theorem C8_all_comp_wise_short_circuit_witness :
    ∃ (r : Bool) (tr : List Nat),
      acwTrace (arrN ℤ 2) (fun x y => decide (x ≤ y)) ⟨[1, 5], rfl⟩ ⟨[2, 3], rfl⟩ =
        some (r, tr) ∧
      all_comp_wise (arrN ℤ 2) (fun x y => decide (x ≤ y)) ⟨[1, 5], rfl⟩ ⟨[2, 3], rfl⟩ =
        some r ∧
      (r = true ↔ ∀ i, i < (arrN ℤ 2).dims →
        Option.map₂ (fun x y => decide (x ≤ y)) ((arrN ℤ 2).nth ⟨[1, 5], rfl⟩ i)
          ((arrN ℤ 2).nth ⟨[2, 3], rfl⟩ i) = some true) ∧
      (r = true → tr = List.range (arrN ℤ 2).dims) ∧
      (∀ k, k < (arrN ℤ 2).dims →
        (∀ j, j < k → Option.map₂ (fun x y => decide (x ≤ y))
          ((arrN ℤ 2).nth ⟨[1, 5], rfl⟩ j) ((arrN ℤ 2).nth ⟨[2, 3], rfl⟩ j) = some true) →
        Option.map₂ (fun x y => decide (x ≤ y)) ((arrN ℤ 2).nth ⟨[1, 5], rfl⟩ k)
          ((arrN ℤ 2).nth ⟨[2, 3], rfl⟩ k) = some false →
        r = false ∧ tr = List.range (k + 1)) :=
  C8_all_comp_wise_short_circuit (arrN_lawful ℤ 2) (fun x y => decide (x ≤ y))
    ⟨[1, 5], rfl⟩ ⟨[2, 3], rfl⟩

/-- C1 (amended): a cross-type `map` between lawful vector types of different
fixed dimensions behaves asymmetrically.  Into a STRICTLY LARGER target it
raises no error and silently yields a structurally malformed result (only the
source's `dimensions()` components are meaningful; the components above them
are the target scalar's zero left by `O::new()`).  Into a STRICTLY SMALLER
target the loop writes out of the target's range, which is a reported
failure (`none` here; an index panic in the provided adapters), not a
malformed value. -/
theorem C1_map_dim_mismatch {V S W T : Type} {I : VectorN V S} {J : VectorN W T}
    (L : LawfulVectorN I) (M : LawfulVectorN J) (JSc : ScalarOps T) (f : S → T) (self : V) :
    (I.dims < J.dims →
      ∃ r, vmap I J JSc f self = some r ∧
        (∀ j, j < I.dims → J.nth r j = Option.map f (I.nth self j)) ∧
        (∀ j, I.dims ≤ j → j < J.dims → J.nth r j = some JSc.zero)) ∧
    (J.dims < I.dims → vmap I J JSc f self = none) := by
  constructor
  · intro hlt
    obtain ⟨r, hr, h1, h2⟩ := vmap_spec L M JSc f self (Nat.le_of_lt hlt)
    refine ⟨r, hr, h1, fun j hj1 hj2 => ?_⟩
    rw [h2 j hj1]
    exact M.nth_from_value JSc.zero j hj2
  · intro hlt
    exact mapGo_none L M f self (List.range I.dims) (vnew J JSc)
      (fun i hi => List.mem_range.mp hi)
      ⟨J.dims, List.mem_range.mpr hlt, Nat.le_refl J.dims⟩

/-- Counterexample to C1 as stated: mapping the integer 3-array into the
integer 2-array — a target whose fixed dimension is SMALLER than the
source's — does not produce any (malformed) result vector at all: the third
loop iteration writes out of the target's range, a reported failure (`none`
in the embedding, an out-of-bounds index panic in the Rust array adapter),
contradicting the claim that no panic/failure is raised for every cross-type
dimension mismatch. -/
theorem C1_map_dim_mismatch_counterexample :
    vmap (arrN ℤ 3) (arrN ℤ 2) intOps (fun x => x) ⟨[1, 2, 3], rfl⟩ = none := rfl

/-- Witness for C1 (amended), larger-target branch: mapping the integer
2-array `[5, 7]` into the integer 3-array succeeds with no error and the
component at index 2 is zero (malformed: only 2 meaningful components). -/
theorem C1_map_dim_mismatch_witness :
    ∃ r, vmap (arrN ℤ 2) (arrN ℤ 3) intOps (fun x => x + 1) ⟨[5, 7], rfl⟩ = some r ∧
      (∀ j, j < (arrN ℤ 2).dims → (arrN ℤ 3).nth r j =
        Option.map (fun x => x + 1) ((arrN ℤ 2).nth ⟨[5, 7], rfl⟩ j)) ∧
      (∀ j, (arrN ℤ 2).dims ≤ j → j < (arrN ℤ 3).dims →
        (arrN ℤ 3).nth r j = some intOps.zero) :=
  (C1_map_dim_mismatch (arrN_lawful ℤ 2) (arrN_lawful ℤ 3) intOps (fun x => x + 1)
    ⟨[5, 7], rfl⟩).1 (by decide)

/-- C10: mapping into a lawful target type of strictly larger fixed dimension
applies `f` exactly `Self::dimensions()` times, once per source index in
ascending order (the instrumented trace is exactly the source's component
list), the result's first `Self::dimensions()` components are the mapped
values, every component from `Self::dimensions()` up to the target's
dimension equals the scalar zero placed there by `O::new()`, and components
beyond the target's dimension do not exist. -/
theorem C10_map_larger_target {V S W T : Type} {I : VectorN V S} {J : VectorN W T}
    (L : LawfulVectorN I) (M : LawfulVectorN J) (JSc : ScalarOps T) (f : S → T) (self : V)
    (h : I.dims < J.dims) :
    ∃ r tr, vmapTrace I J JSc f self = some (r, tr) ∧
      vmap I J JSc f self = some r ∧
      tr.length = I.dims ∧
      (∀ k : Nat, tr[k]? = I.nth self k) ∧
      (∀ j, j < I.dims → J.nth r j = Option.map f (I.nth self j)) ∧
      (∀ j, I.dims ≤ j → j < J.dims → J.nth r j = some JSc.zero) ∧
      (∀ j, J.dims ≤ j → J.nth r j = none) := by
  obtain ⟨w, ts, hmt, hlen, hts, hmem, hrest⟩ := mapTraceGo_spec L M f self
    (List.range I.dims) (vnew J JSc) [] (fun i hi => List.mem_range.mp hi)
    (fun i hi => Nat.lt_trans (List.mem_range.mp hi) h) (List.nodup_range I.dims)
  have hproj := mapTraceGo_fst I J f self (List.range I.dims) (vnew J JSc) []
  rw [hmt] at hproj
  simp only [Option.map_some'] at hproj
  have hoob : ∀ j, I.dims ≤ j → J.nth w j = J.nth (vnew J JSc) j := fun j hj =>
    hrest j (fun hmem' => absurd (List.mem_range.mp hmem') (Nat.not_lt.mpr hj))
  refine ⟨w, ts, ?_, hproj.symm, by simp [hlen], ?_,
    fun j hj => hmem j (List.mem_range.mpr hj), ?_, ?_⟩
  · show mapTraceGo I J f self (List.range I.dims) (vnew J JSc) [] = some (w, ts)
    rw [hmt]
    simp
  · intro k
    by_cases hk : k < I.dims
    · rw [hts k, List.getElem?_range hk]
      rfl
    · have h1 : (List.range I.dims)[k]? = none := by
        rw [List.getElem?_eq_none]
        simpa using Nat.not_lt.mp hk
      rw [hts k, h1, L.nth_oob self k (Nat.not_lt.mp hk)]
      rfl
  · intro j hj1 hj2
    rw [hoob j hj1]
    exact M.nth_from_value JSc.zero j hj2
  · intro j hj
    rw [hoob j (by omega)]
    exact M.nth_oob (vnew J JSc) j hj

/-- Witness for C10: mapping the integer 2-array `[5, 7]` into the integer
3-array with doubling: `f` is applied to exactly `5, 7` in order and the
result's third component is zero. -/
theorem C10_map_larger_target_witness :
    ∃ r tr, vmapTrace (arrN ℤ 2) (arrN ℤ 3) intOps (fun x => 2 * x) ⟨[5, 7], rfl⟩ =
        some (r, tr) ∧
      vmap (arrN ℤ 2) (arrN ℤ 3) intOps (fun x => 2 * x) ⟨[5, 7], rfl⟩ = some r ∧
      tr.length = (arrN ℤ 2).dims ∧
      (∀ k : Nat, tr[k]? = (arrN ℤ 2).nth ⟨[5, 7], rfl⟩ k) ∧
      (∀ j, j < (arrN ℤ 2).dims → (arrN ℤ 3).nth r j =
        Option.map (fun x => 2 * x) ((arrN ℤ 2).nth ⟨[5, 7], rfl⟩ j)) ∧
      (∀ j, (arrN ℤ 2).dims ≤ j → j < (arrN ℤ 3).dims →
        (arrN ℤ 3).nth r j = some intOps.zero) ∧
      (∀ j, (arrN ℤ 3).dims ≤ j → (arrN ℤ 3).nth r j = none) :=
  C10_map_larger_target (arrN_lawful ℤ 2) (arrN_lawful ℤ 3) intOps (fun x => 2 * x)
    ⟨[5, 7], rfl⟩ (by decide)

/-- C9: every extension operation (`add`, `sub`, `mul`, `div`,
`component_wise`, `map`, `min_vec`, `max_vec`, `fold`, `all_comp_wise`,
`dot`, `length2`) and `cross` leaves its inputs unchanged: in the
state-threaded embedding, whenever an operation completes, the borrowed
inputs it returns are exactly the originals, the result having been built in
a fresh local (`self.clone()` or `Self::new()`). -/
theorem C9_inputs_unchanged {V S W T U : Type} (I : VectorN V S) (J : VectorN W U)
    (Sc : ScalarOps S) (JSc : ScalarOps U) (f2 : S → S → S) (f1 : S → U)
    (g : T → S → T) (p : S → S → Bool) (init : T) (s : S) (a b : V) :
    (∀ o, component_wiseSt I f2 a b = some o → o.1 = a ∧ o.2.1 = b) ∧
    (∀ o, vaddSt I Sc a b = some o → o.1 = a ∧ o.2.1 = b) ∧
    (∀ o, vsubSt I Sc a b = some o → o.1 = a ∧ o.2.1 = b) ∧
    (∀ o, vmapSt I J JSc f1 a = some o → o.1 = a) ∧
    (∀ o, vmulSt I Sc a s = some o → o.1 = a) ∧
    (∀ o, vdivSt I Sc a s = some o → o.1 = a) ∧
    (∀ o, min_vecSt I Sc a b = some o → o.1 = a ∧ o.2.1 = b) ∧
    (∀ o, max_vecSt I Sc a b = some o → o.1 = a ∧ o.2.1 = b) ∧
    (∀ o, vfoldSt I g a init = some o → o.1 = a) ∧
    (∀ o, all_comp_wiseSt I p a b = some o → o.1 = a ∧ o.2.1 = b) ∧
    (∀ o, vdotSt I Sc a b = some o → o.1 = a ∧ o.2.1 = b) ∧
    (∀ o, length2St I Sc a = some o → o.1 = a) ∧
    (∀ o, crossSt I Sc a b = some o → o.1 = a ∧ o.2.1 = b) := by
  have hcw : ∀ (f : S → S → S) (o : V × V × V),
      component_wiseSt I f a b = some o → o.1 = a ∧ o.2.1 = b :=
    fun f o h => cwStGo_pres I f (List.range I.dims) a b a o h
  have hmapI : ∀ (fx : S → S) (o : V × V),
      vmapSt I I Sc fx a = some o → o.1 = a :=
    fun fx o h => mapStGo_pres I I fx (List.range I.dims) a (vnew I Sc) o h
  have hdotg : ∀ (x y : V) (o : V × V × S), vdotSt I Sc x y = some o →
      o.1 = x ∧ o.2.1 = y := by
    intro x y o h
    simp only [vdotSt, Option.bind_eq_bind] at h
    cases hcwv : component_wiseSt I (fun l r => Sc.mul l r) x y with
    | none => rw [hcwv] at h; simp at h
    | some trip =>
      obtain ⟨a', b', prod⟩ := trip
      rw [hcwv] at h
      simp only [Option.some_bind] at h
      cases hfv : vfoldSt I (fun acc val => Sc.add acc val) prod Sc.zero with
      | none => rw [hfv] at h; simp at h
      | some pr =>
        obtain ⟨p1, total⟩ := pr
        rw [hfv] at h
        simp only [Option.some_bind, Option.some_inj] at h
        obtain ⟨h1, h2⟩ := cwStGo_pres I (fun l r => Sc.mul l r) (List.range I.dims)
          x y x (a', b', prod) hcwv
        rw [← h]
        exact ⟨h1, h2⟩
  refine ⟨hcw f2, hcw (fun l r => Sc.add l r), hcw (fun l r => Sc.sub l r), ?_, ?_, ?_,
    hcw (fun l r => min_inline Sc l r), hcw (fun l r => max_inline Sc l r), ?_, ?_,
    hdotg a b, ?_, ?_⟩
  · exact fun o h => mapStGo_pres I J f1 (List.range I.dims) a (vnew J JSc) o h
  · exact fun o h => hmapI (fun x => Sc.mul x s) o h
  · exact fun o h => hmapI (fun x => Sc.div x s) o h
  · exact fun o h => foldStGo_pres I g (List.range I.dims) a init o h
  · exact fun o h => acwStGo_pres I p (List.range I.dims) a b o h
  · intro o h
    simp only [length2St, Option.bind_eq_bind] at h
    cases hdv : vdotSt I Sc a a with
    | none => rw [hdv] at h; simp at h
    | some trip =>
      obtain ⟨a', rest⟩ := trip
      obtain ⟨a2, total⟩ := rest
      rw [hdv] at h
      simp only [Option.some_bind, Option.some_inj] at h
      have h1 := (hdotg a a (a', a2, total) hdv).1
      rw [← h]
      exact h1
  · intro o h
    simp only [crossSt, Option.bind_eq_bind] at h
    cases hcv : vcross I Sc a b with
    | none => rw [hcv] at h; simp at h
    | some r =>
      rw [hcv] at h
      simp only [Option.some_bind, Option.some_inj] at h
      rw [← h]
      exact ⟨rfl, rfl⟩

/-- Witness for C9: a concrete `component_wise` run over integer 2-arrays
returns its two inputs unchanged alongside the fresh result. -/
theorem C9_inputs_unchanged_witness :
    ((component_wiseSt (arrN ℤ 2) (fun l r => l + r) ⟨[1, 2], rfl⟩ ⟨[3, 4], rfl⟩).getD
        (⟨[0, 0], rfl⟩, ⟨[0, 0], rfl⟩, ⟨[0, 0], rfl⟩)).1 = (⟨[1, 2], rfl⟩ : ArrVec ℤ 2) ∧
    ((component_wiseSt (arrN ℤ 2) (fun l r => l + r) ⟨[1, 2], rfl⟩ ⟨[3, 4], rfl⟩).getD
        (⟨[0, 0], rfl⟩, ⟨[0, 0], rfl⟩, ⟨[0, 0], rfl⟩)).2.1 = (⟨[3, 4], rfl⟩ : ArrVec ℤ 2) :=
  (C9_inputs_unchanged (arrN ℤ 2) (arrN ℤ 3) intOps intOps (fun l r => l + r)
      (fun x => x) (fun acc x => acc + x) (fun x y => decide (x ≤ y)) 0 5
      ⟨[1, 2], rfl⟩ ⟨[3, 4], rfl⟩).1
    ((component_wiseSt (arrN ℤ 2) (fun l r => l + r) ⟨[1, 2], rfl⟩ ⟨[3, 4], rfl⟩).getD
      (⟨[0, 0], rfl⟩, ⟨[0, 0], rfl⟩, ⟨[0, 0], rfl⟩)) rfl
